import Mathlib

/-!
Verification of the svckit broker core: the per-topic update cache
(`fullDiffCache`), the fan-out dispatcher ("spreader"), and the
GridFS-backed persistence layer (`Fs` in pkg/mdb).

The cache and spreader implementations are exercised by the repository's
tests (broker tests for `fullDiffCache.Find/Add/sortDiffs`,
`spreader_test.go` for publish/subscribe/replay); the method bodies
themselves are modelled from the specification, as marked on each
definition.  The persistence layer (`Fs.Insert`, `Fs.Seek`,
`translateError`) is translated directly from `src/pkg/mdb/mdb_fs.go`.
Machine integers (Go `int64` timestamps) are modelled as `Int`.
-/

namespace Svckit

/-- Update kind of a message: `Full` (complete snapshot) or `Diff`
(incremental change), as in package amp. -/
inductive UpdateType where
  | Full
  | Diff
deriving DecidableEq, Repr

/-- A published message: logical timestamp `Ts`, update kind, and the
`Replay` marker seen in the broker tests. -/
structure Msg where
  Ts : Int
  updateType : UpdateType
  replay : Int := 0
deriving DecidableEq, Repr

/-- Per-topic update cache: the most recent `Full` message (absent until
one is published) and the sequence of `Diff` messages. -/
structure fullDiffCache where
  full : Option Msg := none
  diffs : List Msg := []
deriving DecidableEq, Repr

/-- Ordering of messages by timestamp, used by the compaction sort. -/
def tsLe (a b : Msg) : Prop := a.Ts ≤ b.Ts

instance : DecidableRel tsLe := fun a b => inferInstanceAs (Decidable (a.Ts ≤ b.Ts))

instance : IsTotal Msg tsLe := ⟨fun a b => Int.le_total a.Ts b.Ts⟩

instance : IsTrans Msg tsLe := ⟨fun _ _ _ => Int.le_trans⟩

/-- Collapse runs of equal `Ts` in a list to a single entry, keeping the
last of each run.  On a list sorted by `Ts` this removes all duplicate
timestamps. -/
def dedupByTs : List Msg → List Msg
  | [] => []
  | [m] => [m]
  | m :: n :: rest =>
      if m.Ts = n.Ts then dedupByTs (n :: rest) else m :: dedupByTs (n :: rest)

/-- Sort a diff list ascending by `Ts` and collapse duplicate timestamps. -/
def sortDedupByTs (l : List Msg) : List Msg :=
  dedupByTs (List.insertionSort tsLe l)

/-- Modelled from the spec: `fullDiffCache.sortDiffs` (compaction pass) is
not under src/, only its test `TestSortPrevRemovesDuplicates`.  Per §4.1 it
sorts `diffs` ascending by `Ts` and collapses runs of equal `Ts` to one
entry; `full` is untouched. -/
def fullDiffCache.sortDiffs (c : fullDiffCache) : fullDiffCache :=
  { c with diffs := sortDedupByTs c.diffs }

/-- Modelled from the spec: `fullDiffCache.Add` is not under src/, only its
test `TestFullDiffCacheAdd`.  Per §4.1: a `Full` message unconditionally
replaces `full` and leaves `diffs` untouched; a `Diff` whose `Ts` equals the
current `full.Ts` is not stored; a `Diff` whose `Ts` already occurs in
`diffs` is discarded as a duplicate; otherwise the diff is appended without
enforcing sort order. -/
def fullDiffCache.Add (c : fullDiffCache) (m : Msg) : fullDiffCache :=
  if m.updateType = UpdateType.Full then
    { c with full := some m }
  else if (match c.full with | some f => decide (m.Ts = f.Ts) | none => false) then
    c
  else if c.diffs.any (fun d => d.Ts = m.Ts) then
    c
  else
    { c with diffs := c.diffs ++ [m] }

/-- The greatest `Ts` across `full` (given) and all diffs (§4.1 `maxTs`). -/
def fullDiffCache.maxTs (c : fullDiffCache) (f : Msg) : Int :=
  c.diffs.foldl (fun acc d => max acc d.Ts) f.Ts

/-- Modelled from the spec: `fullDiffCache.Find` is not under src/, only its
tests.  Per §4.1: absent `full` yields the distinguishable "no data" result
(`none`); if `fromTs < full.Ts` or `fromTs > maxTs`, the full-reset sequence
(`full` followed by every diff with `Ts > full.Ts`, ascending, deduplicated);
otherwise every diff with `Ts > fromTs`, ascending, deduplicated, with
`full` omitted. -/
def fullDiffCache.Find (c : fullDiffCache) (fromTs : Int) : Option (List Msg) :=
  match c.full with
  | none => none
  | some f =>
      if fromTs < f.Ts ∨ c.maxTs f < fromTs then
        some (f :: sortDedupByTs (c.diffs.filter (fun d => f.Ts < d.Ts)))
      else
        some (sortDedupByTs (c.diffs.filter (fun d => fromTs < d.Ts)))

/-! ### Dispatcher ("spreader") model

Modelled from the spec: the spreader implementation is not under src/
(only `spreader_test.go`).  Per §4.2/§5 every publish/subscribe/unsubscribe
is admitted into one serialized control path per topic, so the dispatcher
is embedded as a state machine over the total order of admitted
operations; per-subscriber delivery is recorded explicitly. -/

/-- Dispatcher state: the owned update cache, the live subscriber set
(handles modelled as `Nat` ids), and the messages delivered so far to each
subscriber, in delivery order. -/
structure SpreaderState where
  cache : fullDiffCache := {}
  subs : List Nat := []
  delivered : Nat → List Msg := fun _ => []

/-- Modelled from the spec: `subscribe` (§4.2) computes `Find(fromTs)`,
delivers each resulting message to the subscriber in order (nothing when
`Find` returns "no data"), then adds the subscriber to the live set (at
most once). -/
def subscribeOp (st : SpreaderState) (s : Nat) (fromTs : Int) : SpreaderState :=
  let catchup := (st.cache.Find fromTs).getD []
  { st with
    delivered := fun id => if id = s then st.delivered id ++ catchup else st.delivered id
    subs := if s ∈ st.subs then st.subs else st.subs ++ [s] }

/-- Modelled from the spec: `publish` (§4.2) applies the message to
`UpdateCache.Add` and fans it out to every currently registered
subscriber, each of which observes it after its earlier deliveries. -/
def publishOp (st : SpreaderState) (m : Msg) : SpreaderState :=
  { cache := st.cache.Add m
    subs := st.subs
    delivered := fun id =>
      if id ∈ st.subs then st.delivered id ++ [m] else st.delivered id }

/-- Modelled from the spec: `unsubscribe` (§4.2) removes the subscriber
from the set and reports whether the set is now empty. -/
def unsubscribeOp (st : SpreaderState) (s : Nat) : SpreaderState × Bool :=
  let remaining := st.subs.erase s
  ({ st with subs := remaining }, remaining.isEmpty)

/-- Modelled from the spec: `replay` (§4.2) returns the full-reset
catch-up sequence — what a `fromTs = 0` subscriber would receive — without
registering anyone; it only reads the cache. -/
def replayOp (st : SpreaderState) : List Msg :=
  match st.cache.full with
  | none => []
  | some f => f :: sortDedupByTs (st.cache.diffs.filter (fun d => f.Ts < d.Ts))

/-- An operation admitted into the serialized control path. -/
inductive Op where
  | publish (m : Msg)
  | subscribe (s : Nat) (fromTs : Int)
  | unsubscribe (s : Nat)
deriving DecidableEq, Repr

/-- One admitted operation applied to the dispatcher state. -/
def step (st : SpreaderState) : Op → SpreaderState
  | Op.publish m => publishOp st m
  | Op.subscribe s t => subscribeOp st s t
  | Op.unsubscribe s => (unsubscribeOp st s).1

/-- A sequence of admitted operations applied in admission order. -/
def run (st : SpreaderState) : List Op → SpreaderState
  | [] => st
  | op :: ops => run (step st op) ops

/-- The messages published by an operation sequence, in admission order. -/
def publishedMsgs : List Op → List Msg
  | [] => []
  | Op.publish m :: ops => m :: publishedMsgs ops
  | _ :: ops => publishedMsgs ops

/-- `true` when the operation subscribes or unsubscribes subscriber `s`. -/
def touches (s : Nat) : Op → Bool
  | Op.publish _ => false
  | Op.subscribe s2 _ => s2 = s
  | Op.unsubscribe s2 => s2 = s

/-- `true` when the operation subscribes subscriber `s`. -/
def subscribesTo (s : Nat) : Op → Bool
  | Op.subscribe s2 _ => s2 = s
  | _ => false

/-! ### Persistence layer (src/pkg/mdb/mdb_fs.go)

`Fs` wraps a GridFS store; timestamps (`time.Time`) are modelled as `Int`
with `0` as the zero time, ids as `Nat`.  The mgo driver itself is
external; its error values and `OpenId` success condition are modelled
abstractly. -/

/-- Errors crossing the mdb persistence layer: the package's own
`ErrDuplicate` and `ErrNotFound`, the mgo driver's duplicate-key and
not-found errors, and any other underlying store error (tagged by code). -/
inductive MdbError where
  | errDuplicate
  | errNotFound
  | mgoDup
  | mgoNotFound
  | underlying (code : Nat)
deriving DecidableEq, Repr

/-- The mgo driver's duplicate-key test (`mgo.IsDup`): true exactly on the
driver's duplicate-key error. -/
def isDup : MdbError → Bool
  | MdbError.mgoDup => true
  | _ => false

/-- `translateError` from src/pkg/mdb/mdb_fs.go: a duplicate-key error
becomes `ErrDuplicate`, the driver's not-found error becomes
`ErrNotFound`, every other error is returned unchanged. -/
def translateError (e : MdbError) : MdbError :=
  if isDup e then MdbError.errDuplicate
  else if e = MdbError.mgoNotFound then MdbError.errNotFound
  else e

/-- A stored GridFS file: optional caller-assigned id, filename (the type
name under which `Fs` groups files), and upload date. -/
structure FsFile where
  id : Option Nat := none
  filename : String
  uploadDate : Int
deriving DecidableEq, Repr

/-- The GridFS store visible to `Fs`: the stored files. -/
structure GridFS where
  files : List FsFile := []
deriving DecidableEq, Repr

/-- `g.OpenId id` succeeds exactly when a file with that id is stored. -/
def GridFS.openIdOk (g : GridFS) (i : Nat) : Bool :=
  g.files.any (fun f => f.id = some i)

/-- `Fs.Insert` from src/pkg/mdb/mdb_fs.go: with a non-nil id it first
opens by id and returns `ErrDuplicate` when that succeeds; otherwise it
creates the file under the type name, sets the id when given, sets the
upload date, and stores the content. -/
def Fs.Insert (g : GridFS) (typ : String) (id : Option Nat) (ts : Int) :
    Except MdbError GridFS :=
  match id with
  | some i =>
      if g.openIdOk i then Except.error MdbError.errDuplicate
      else Except.ok ⟨g.files ++ [{ id := some i, filename := typ, uploadDate := ts }]⟩
  | none => Except.ok ⟨g.files ++ [{ id := none, filename := typ, uploadDate := ts }]⟩

/-- Ordering of files by upload date, used by the Seek sort. -/
def dateLe (a b : FsFile) : Prop := a.uploadDate ≤ b.uploadDate

instance : DecidableRel dateLe :=
  fun a b => inferInstanceAs (Decidable (a.uploadDate ≤ b.uploadDate))

instance : IsTotal FsFile dateLe := ⟨fun a b => Int.le_total a.uploadDate b.uploadDate⟩

instance : IsTrans FsFile dateLe := ⟨fun _ _ _ => Int.le_trans⟩

/-- `Fs.Seek` from src/pkg/mdb/mdb_fs.go: the query matches the type's
filename and, only when `fromTs` is not the zero time, additionally
restricts to `uploadDate > fromTs`; matching files are visited sorted by
upload date. -/
def Fs.Seek (g : GridFS) (typ : String) (fromTs : Int) : List FsFile :=
  List.insertionSort dateLe
    (g.files.filter (fun f =>
      decide (f.filename = typ ∧ (fromTs = 0 ∨ fromTs < f.uploadDate))))

end Svckit

namespace Svckit

-- Scenario checks from the repository tests (TestFullDiffCacheFindForSubscribe).
section Scratch

def dmsg (t : Int) : Msg := { Ts := t, updateType := UpdateType.Diff }

def fmsg (t : Int) : Msg := { Ts := t, updateType := UpdateType.Full }

def testCache : fullDiffCache :=
  { full := some (fmsg 10), diffs := [dmsg 10, dmsg 11, dmsg 12, dmsg 13] }

def st0 : SpreaderState := { cache := testCache, subs := [1] }

def gfs0 : GridFS := ⟨[{ id := some 1, filename := "full", uploadDate := 5 }]⟩

def gfs1 : GridFS :=
  ⟨[{ id := none, filename := "d", uploadDate := -3 },
    { id := none, filename := "d", uploadDate := 7 }]⟩

example : (testCache.Find 0).map List.length = some 4 := by decide
example : (testCache.Find 9).map List.length = some 4 := by decide
example : (testCache.Find 10) = some [dmsg 11, dmsg 12, dmsg 13] := by decide
example : (testCache.Find 11) = some [dmsg 12, dmsg 13] := by decide
example : (testCache.Find 13) = some [] := by decide
example : (testCache.Find 14).map List.length = some 4 := by decide
example : ((testCache.Add (dmsg 15)).Find 14) = some [dmsg 15] := by decide
example : (fullDiffCache.mk none [dmsg 10, dmsg 11]).Find 0 = none := by decide

-- TestFullDiffCacheAdd scenario
def addCache0 : fullDiffCache :=
  { full := some (fmsg 10), diffs := [dmsg 11, dmsg 12] }

example : (addCache0.Add (dmsg 15)).diffs.length = 3 := by decide
example : ((addCache0.Add (dmsg 15)).Add (fmsg 15)).diffs.length = 3 := by decide
example : (((addCache0.Add (dmsg 15)).Add (fmsg 15)).Add (dmsg 15)).diffs.length = 3 := by
  decide
example : ((((addCache0.Add (dmsg 15)).Add (fmsg 15)).Add (dmsg 15)).Add
    (dmsg 14)).diffs.length = 4 := by decide
example : (((((addCache0.Add (dmsg 15)).Add (fmsg 15)).Add (dmsg 15)).Add
    (dmsg 14)).Add (dmsg 14)).diffs.length = 4 := by decide

-- TestSortPrevRemovesDuplicates scenario
example : (fullDiffCache.mk (some (fmsg 10))
    [dmsg 10, dmsg 12, dmsg 12, dmsg 15, { Ts := 15, updateType := UpdateType.Diff, replay := 1 }]
    ).sortDiffs.diffs.map Msg.Ts = [10, 12, 15] := by decide

end Scratch

/-! ### Lemmas about the sort/dedup pipeline -/

theorem mem_dedupByTs : ∀ {l : List Msg} {m : Msg}, m ∈ dedupByTs l → m ∈ l
  | [], _, h => by simp [dedupByTs] at h
  | [_], _, h => by simpa [dedupByTs] using h
  | a :: b :: rest, m, h => by
      by_cases hab : a.Ts = b.Ts
      · simp only [dedupByTs, if_pos hab] at h
        exact List.mem_cons_of_mem _ (mem_dedupByTs h)
      · simp only [dedupByTs, if_neg hab, List.mem_cons] at h
        rcases h with h | h
        · simp [h]
        · exact List.mem_cons_of_mem _ (mem_dedupByTs h)

theorem ts_mem_dedupByTs : ∀ {l : List Msg} {t : Int},
    (∃ m ∈ dedupByTs l, m.Ts = t) ↔ ∃ m ∈ l, m.Ts = t
  | [], t => by simp [dedupByTs]
  | [m], t => by simp [dedupByTs]
  | a :: b :: rest, t => by
      constructor
      · rintro ⟨m, hm, ht⟩
        exact ⟨m, mem_dedupByTs hm, ht⟩
      · rintro ⟨m, hm, ht⟩
        by_cases hab : a.Ts = b.Ts
        · simp only [dedupByTs, if_pos hab]
          rcases List.mem_cons.mp hm with rfl | hm
          · exact ts_mem_dedupByTs.mpr ⟨b, by simp, by omega⟩
          · exact ts_mem_dedupByTs.mpr ⟨m, hm, ht⟩
        · simp only [dedupByTs, if_neg hab]
          rcases List.mem_cons.mp hm with rfl | hm
          · exact ⟨m, by simp, ht⟩
          · obtain ⟨m2, hm2, ht2⟩ := ts_mem_dedupByTs.mpr ⟨m, hm, ht⟩
            exact ⟨m2, List.mem_cons_of_mem _ hm2, ht2⟩

theorem pairwise_lt_dedupByTs : ∀ {l : List Msg}, l.Sorted tsLe →
    (dedupByTs l).Pairwise (fun a b => a.Ts < b.Ts)
  | [], _ => by simp [dedupByTs]
  | [_], _ => by simp [dedupByTs]
  | a :: b :: rest, h => by
      have hab : tsLe a b := (List.sorted_cons.mp h).1 b (by simp)
      have htail : (b :: rest).Sorted tsLe := (List.sorted_cons.mp h).2
      by_cases he : a.Ts = b.Ts
      · simpa only [dedupByTs, if_pos he] using pairwise_lt_dedupByTs htail
      · have hlt : a.Ts < b.Ts := lt_of_le_of_ne hab he
        simp only [dedupByTs, if_neg he]
        refine List.pairwise_cons.mpr ⟨?_, pairwise_lt_dedupByTs htail⟩
        intro c hc
        rcases List.mem_cons.mp (mem_dedupByTs hc) with rfl | hcm
        · exact hlt
        · exact lt_of_lt_of_le hlt ((List.sorted_cons.mp htail).1 c hcm)

theorem mem_sortDedupByTs {l : List Msg} {m : Msg} (h : m ∈ sortDedupByTs l) : m ∈ l :=
  (List.perm_insertionSort tsLe l).mem_iff.mp (mem_dedupByTs h)

theorem ts_mem_sortDedupByTs {l : List Msg} {t : Int} :
    (∃ m ∈ sortDedupByTs l, m.Ts = t) ↔ ∃ m ∈ l, m.Ts = t := by
  unfold sortDedupByTs
  rw [ts_mem_dedupByTs]
  constructor
  · rintro ⟨m, hm, ht⟩
    exact ⟨m, (List.perm_insertionSort tsLe l).mem_iff.mp hm, ht⟩
  · rintro ⟨m, hm, ht⟩
    exact ⟨m, (List.perm_insertionSort tsLe l).mem_iff.mpr hm, ht⟩

theorem pairwise_lt_sortDedupByTs (l : List Msg) :
    (sortDedupByTs l).Pairwise (fun a b => a.Ts < b.Ts) :=
  pairwise_lt_dedupByTs (List.sorted_insertionSort tsLe l)

theorem find_eq_of_none (c : fullDiffCache) (t : Int) (hf : c.full = none) :
    c.Find t = none := by
  unfold fullDiffCache.Find
  rw [hf]

theorem find_eq_of_full_some (c : fullDiffCache) (f : Msg) (hf : c.full = some f) (t : Int) :
    c.Find t =
      if t < f.Ts ∨ c.maxTs f < t then
        some (f :: sortDedupByTs (c.diffs.filter (fun d => f.Ts < d.Ts)))
      else
        some (sortDedupByTs (c.diffs.filter (fun d => t < d.Ts))) := by
  unfold fullDiffCache.Find
  rw [hf]

theorem add_diffs_cases (c : fullDiffCache) (m : Msg) :
    (c.Add m).diffs = c.diffs ∨ (c.Add m).diffs = c.diffs ++ [m] := by
  unfold fullDiffCache.Add
  split
  · exact Or.inl rfl
  · split
    · exact Or.inl rfl
    · split
      · exact Or.inl rfl
      · exact Or.inr rfl

/-! ### Claim theorems about the cache -/

/-- C1: with a present snapshot `full = f`, `Find t` returns the full-reset
sequence (`f` followed by the diffs with `Ts > f.Ts`, strictly ascending by
`Ts`, deduplicated) whenever `t < f.Ts` or `t > maxTs`, and otherwise
returns exactly the diffs with `Ts > t`, strictly ascending, deduplicated,
with `full` omitted. -/
theorem find_characterization (c : fullDiffCache) (f : Msg) (hf : c.full = some f) (t : Int) :
    ((t < f.Ts ∨ c.maxTs f < t) →
      ∃ l, c.Find t = some (f :: l) ∧
        l.Pairwise (fun a b => a.Ts < b.Ts) ∧
        (∀ m ∈ l, m ∈ c.diffs ∧ f.Ts < m.Ts) ∧
        (∀ ts, (∃ m ∈ l, m.Ts = ts) ↔ ∃ d ∈ c.diffs, d.Ts = ts ∧ f.Ts < ts)) ∧
    ((f.Ts ≤ t ∧ t ≤ c.maxTs f) →
      ∃ l, c.Find t = some l ∧
        l.Pairwise (fun a b => a.Ts < b.Ts) ∧
        (∀ m ∈ l, m ∈ c.diffs ∧ t < m.Ts) ∧
        (∀ ts, (∃ m ∈ l, m.Ts = ts) ↔ ∃ d ∈ c.diffs, d.Ts = ts ∧ t < ts)) := by
  constructor
  · intro h
    refine ⟨sortDedupByTs (c.diffs.filter (fun d => f.Ts < d.Ts)), ?_, ?_, ?_, ?_⟩
    · rw [find_eq_of_full_some c f hf t, if_pos h]
    · exact pairwise_lt_sortDedupByTs _
    · intro m hm
      have := mem_sortDedupByTs hm
      rw [List.mem_filter] at this
      exact ⟨this.1, by simpa using this.2⟩
    · intro ts
      rw [ts_mem_sortDedupByTs]
      constructor
      · rintro ⟨m, hm, ht⟩
        rw [List.mem_filter] at hm
        exact ⟨m, hm.1, ht, ht ▸ by simpa using hm.2⟩
      · rintro ⟨d, hd, ht, hgt⟩
        exact ⟨d, List.mem_filter.mpr ⟨hd, by simpa using ht ▸ hgt⟩, ht⟩
  · rintro ⟨h1, h2⟩
    refine ⟨sortDedupByTs (c.diffs.filter (fun d => t < d.Ts)), ?_, ?_, ?_, ?_⟩
    · rw [find_eq_of_full_some c f hf t, if_neg (by omega)]
    · exact pairwise_lt_sortDedupByTs _
    · intro m hm
      have := mem_sortDedupByTs hm
      rw [List.mem_filter] at this
      exact ⟨this.1, by simpa using this.2⟩
    · intro ts
      rw [ts_mem_sortDedupByTs]
      constructor
      · rintro ⟨m, hm, ht⟩
        rw [List.mem_filter] at hm
        exact ⟨m, hm.1, ht, ht ▸ by simpa using hm.2⟩
      · rintro ⟨d, hd, ht, hgt⟩
        exact ⟨d, List.mem_filter.mpr ⟨hd, by simpa using ht ▸ hgt⟩, ht⟩

/-- C1 witness: the test cache (full at Ts 10, diffs at 10..13) queried at
`fromTs = 0` takes the reset branch. -/
theorem find_characterization_witness :
    ∃ l, testCache.Find 0 = some (fmsg 10 :: l) ∧
      l.Pairwise (fun a b => a.Ts < b.Ts) ∧
      (∀ m ∈ l, m ∈ testCache.diffs ∧ (fmsg 10).Ts < m.Ts) ∧
      (∀ ts, (∃ m ∈ l, m.Ts = ts) ↔ ∃ d ∈ testCache.diffs, d.Ts = ts ∧ (fmsg 10).Ts < ts) :=
  (find_characterization testCache (fmsg 10) rfl 0).1 (Or.inl (by decide))

/-- C2: for a `Diff` message, `Add` stores nothing when `full` is present
with the same `Ts`, stores nothing when a diff with the same `Ts` already
exists, otherwise appends the message; `diffs` grows by at most one. -/
theorem add_diff_behavior (c : fullDiffCache) (m : Msg) (hm : m.updateType = UpdateType.Diff) :
    ((∃ f, c.full = some f ∧ m.Ts = f.Ts) → c.Add m = c) ∧
    ((∃ d ∈ c.diffs, d.Ts = m.Ts) → (c.Add m).diffs = c.diffs) ∧
    ((¬ ∃ f, c.full = some f ∧ m.Ts = f.Ts) → (¬ ∃ d ∈ c.diffs, d.Ts = m.Ts) →
      (c.Add m).diffs = c.diffs ++ [m]) ∧
    (c.Add m).diffs.length ≤ c.diffs.length + 1 := by
  have hne : ¬ m.updateType = UpdateType.Full := by rw [hm]; simp
  refine ⟨?_, ?_, ?_, ?_⟩
  · rintro ⟨f, hf, hts⟩
    simp [fullDiffCache.Add, hne, hf, hts]
  · rintro ⟨d, hd, hts⟩
    have hany : c.diffs.any (fun x => decide (x.Ts = m.Ts)) = true :=
      List.any_eq_true.mpr ⟨d, hd, by simp [hts]⟩
    by_cases hfull : (match c.full with | some f => decide (m.Ts = f.Ts) | none => false) = true
    · simp [fullDiffCache.Add, hne, hfull]
    · simp [fullDiffCache.Add, hne, hfull, hany]
  · intro hnf hnd
    have hfull : (match c.full with | some f => decide (m.Ts = f.Ts) | none => false) = false := by
      cases hf : c.full with
      | none => rfl
      | some f =>
          simp only [decide_eq_false_iff_not]
          exact fun hts => hnf ⟨f, hf, hts⟩
    have hany : c.diffs.any (fun x => decide (x.Ts = m.Ts)) = false := by
      rw [List.any_eq_false]
      intro d hd
      simp only [decide_eq_true_eq]
      exact fun hts => hnd ⟨d, hd, hts⟩
    simp [fullDiffCache.Add, hne, hfull, hany]
  · rcases add_diffs_cases c m with h | h <;> rw [h]
    · omega
    · simp

/-- C2 witness: adding a duplicate diff (Ts 11 already present) leaves the
test cache's diff list unchanged, and the length bound holds. -/
theorem add_diff_behavior_witness :
    (addCache0.Add (dmsg 11)).diffs = addCache0.diffs ∧
    (addCache0.Add (dmsg 11)).diffs.length ≤ addCache0.diffs.length + 1 :=
  ⟨(add_diff_behavior addCache0 (dmsg 11) rfl).2.1 ⟨dmsg 11, by decide, by decide⟩,
    (add_diff_behavior addCache0 (dmsg 11) rfl).2.2.2⟩

/-- C3: a `Full` message unconditionally replaces `full` and leaves the
diff sequence unchanged. -/
theorem add_full_replaces (c : fullDiffCache) (m : Msg) (hm : m.updateType = UpdateType.Full) :
    c.Add m = { full := some m, diffs := c.diffs } := by
  simp [fullDiffCache.Add, hm]

/-- C3 witness: publishing full(15) over the test cache replaces the
snapshot and keeps the three diffs. -/
theorem add_full_replaces_witness :
    addCache0.Add (fmsg 15) = { full := some (fmsg 15), diffs := addCache0.diffs } :=
  add_full_replaces addCache0 (fmsg 15) rfl

/-- C4: `Find` returns the absent result exactly when `full` is absent;
with `full` present and no diff beyond `fromTs` in the incremental range,
`Find` returns the empty (non-absent) sequence. -/
theorem find_no_data_and_caught_up (c : fullDiffCache) (t : Int) :
    (c.Find t = none ↔ c.full = none) ∧
    (∀ f, c.full = some f → f.Ts ≤ t → t ≤ c.maxTs f →
      (∀ d ∈ c.diffs, d.Ts ≤ t) → c.Find t = some []) := by
  constructor
  · cases hf : c.full with
    | none => simp [find_eq_of_none c t hf, hf]
    | some f =>
        rw [find_eq_of_full_some c f hf t]
        constructor
        · intro h
          split at h <;> simp at h
        · intro h
          simp at h
  · intro f hf h1 h2 hall
    rw [find_eq_of_full_some c f hf t, if_neg (by omega)]
    have hnil : c.diffs.filter (fun d => decide (t < d.Ts)) = [] := by
      rw [List.filter_eq_nil_iff]
      intro a ha
      simpa using not_lt.mpr (hall a ha)
    rw [hnil]
    rfl

/-- C4 witness: the test cache queried at its maximum timestamp returns the
empty, non-absent sequence. -/
theorem find_no_data_witness : testCache.Find 13 = some [] :=
  (find_no_data_and_caught_up testCache 13).2 (fmsg 10) rfl (by decide) (by decide)
    (by decide)

/-- C5: after one `sortDiffs` pass the diff sequence is strictly ascending
by `Ts` (hence no two entries share a `Ts`) and its set of `Ts` values is a
subset of the pre-compaction set. -/
theorem sortDiffs_compaction (c : fullDiffCache) :
    (c.sortDiffs).diffs.Pairwise (fun a b => a.Ts < b.Ts) ∧
    (∀ t, (∃ m ∈ (c.sortDiffs).diffs, m.Ts = t) → ∃ m ∈ c.diffs, m.Ts = t) :=
  ⟨pairwise_lt_sortDedupByTs c.diffs, fun _ h => ts_mem_sortDedupByTs.mp h⟩

/-! ### Claim theorems about the dispatcher -/

theorem replay_eq_of_full_some (st : SpreaderState) (f : Msg) (hf : st.cache.full = some f) :
    replayOp st = f :: sortDedupByTs (st.cache.diffs.filter (fun d => f.Ts < d.Ts)) := by
  unfold replayOp
  rw [hf]

theorem sortDedup_filter_gt (ds : List Msg) (cut : Int) :
    (sortDedupByTs (ds.filter (fun d => cut < d.Ts))).Pairwise (fun a b => a.Ts < b.Ts) ∧
    (∀ m ∈ sortDedupByTs (ds.filter (fun d => cut < d.Ts)), m ∈ ds ∧ cut < m.Ts) ∧
    (∀ ts, (∃ m ∈ sortDedupByTs (ds.filter (fun d => cut < d.Ts)), m.Ts = ts) ↔
      ∃ d ∈ ds, d.Ts = ts ∧ cut < ts) := by
  refine ⟨pairwise_lt_sortDedupByTs _, ?_, ?_⟩
  · intro m hm
    have := mem_sortDedupByTs hm
    rw [List.mem_filter] at this
    exact ⟨this.1, by simpa using this.2⟩
  · intro ts
    rw [ts_mem_sortDedupByTs]
    constructor
    · rintro ⟨m, hm, ht⟩
      rw [List.mem_filter] at hm
      exact ⟨m, hm.1, ht, ht ▸ by simpa using hm.2⟩
    · rintro ⟨d, hd, ht, hgt⟩
      exact ⟨d, List.mem_filter.mpr ⟨hd, by simpa using ht ▸ hgt⟩, ht⟩

/-- C6: `subscribe(s, fromTs)` delivers to `s` exactly the messages of
`UpdateCache.Find(fromTs)`, in order, after its earlier deliveries, then
registers `s` in the live set; the number of catch-up messages delivered
equals the length of the `Find` result; the cache and all other
subscribers' deliveries are untouched. -/
theorem subscribe_delivers_find (st : SpreaderState) (s : Nat) (fromTs : Int) :
    (subscribeOp st s fromTs).delivered s
        = st.delivered s ++ (st.cache.Find fromTs).getD [] ∧
    ((subscribeOp st s fromTs).delivered s).length
        = (st.delivered s).length + ((st.cache.Find fromTs).getD []).length ∧
    s ∈ (subscribeOp st s fromTs).subs ∧
    (subscribeOp st s fromTs).cache = st.cache ∧
    (∀ id, id ≠ s → (subscribeOp st s fromTs).delivered id = st.delivered id) := by
  refine ⟨by simp [subscribeOp], by simp [subscribeOp], ?_, rfl, ?_⟩
  · by_cases h : s ∈ st.subs <;> simp [subscribeOp, h]
  · intro id hid
    simp [subscribeOp, hid]

/-- C6 witness: a fresh subscriber joining `st0` at `fromTs = 0` is handed
the four-message reset sequence and a bystander's log is untouched. -/
theorem subscribe_delivers_find_witness :
    ((subscribeOp st0 2 0).delivered 2).length
        = (st0.delivered 2).length + ((st0.cache.Find 0).getD []).length ∧
    2 ∈ (subscribeOp st0 2 0).subs ∧
    (subscribeOp st0 2 0).delivered 1 = st0.delivered 1 :=
  ⟨(subscribe_delivers_find st0 2 0).2.1,
   (subscribe_delivers_find st0 2 0).2.2.1,
   (subscribe_delivers_find st0 2 0).2.2.2.2 1 (by decide)⟩

/-- C7: `replay` returns the full-reset catch-up sequence — the snapshot
followed by the cached diffs with `Ts > full.Ts` in strictly ascending
`Ts` order even when they were published out of order — which is exactly
what a `fromTs = 0` subscriber receives (whenever `full.Ts` is positive,
as topic timestamps are); it is a pure read of the state. -/
theorem replay_is_full_reset (st : SpreaderState) (f : Msg) (hf : st.cache.full = some f) :
    (0 < f.Ts → replayOp st = (st.cache.Find 0).getD []) ∧
    (∃ l, replayOp st = f :: l ∧
      l.Pairwise (fun a b => a.Ts < b.Ts) ∧
      (∀ m ∈ l, m ∈ st.cache.diffs ∧ f.Ts < m.Ts) ∧
      (∀ ts, (∃ m ∈ l, m.Ts = ts) ↔ ∃ d ∈ st.cache.diffs, d.Ts = ts ∧ f.Ts < ts)) := by
  constructor
  · intro hpos
    rw [replay_eq_of_full_some st f hf,
      find_eq_of_full_some st.cache f hf 0, if_pos (Or.inl hpos)]
    rfl
  · obtain ⟨h1, h2, h3⟩ := sortDedup_filter_gt st.cache.diffs f.Ts
    exact ⟨_, replay_eq_of_full_some st f hf, h1, h2, h3⟩

/-- C7 witness: on the test state (publishes admitted out of order) replay
equals the `Find 0` reset sequence. -/
theorem replay_is_full_reset_witness :
    replayOp st0 = (st0.cache.Find 0).getD [] :=
  (replay_is_full_reset st0 (fmsg 10) rfl).1 (by decide)

/-- C8: over any admitted operation sequence, a registered subscriber that
the sequence neither re-subscribes nor unsubscribes receives exactly the
messages published in it, appended to its log in admission order (each
exactly once, none dropped, never reordered), and stays registered; a
subscriber not in the set (e.g. just unsubscribed) that the sequence does
not subscribe receives nothing and stays out. -/
theorem registered_delivery_exact (s : Nat) : ∀ (ops : List Op) (st : SpreaderState),
    (s ∈ st.subs → (∀ op ∈ ops, touches s op = false) →
      (run st ops).delivered s = st.delivered s ++ publishedMsgs ops ∧
      s ∈ (run st ops).subs) ∧
    (s ∉ st.subs → (∀ op ∈ ops, subscribesTo s op = false) →
      (run st ops).delivered s = st.delivered s ∧ s ∉ (run st ops).subs)
  | [], st => by simp [run, publishedMsgs]
  | Op.publish m :: ops, st => by
      constructor
      · intro hs hall
        have hrest : ∀ o ∈ ops, touches s o = false :=
          fun o ho => hall o (List.mem_cons_of_mem _ ho)
        have hstep : (step st (Op.publish m)).delivered s = st.delivered s ++ [m] := by
          simp [step, publishOp, hs]
        have hsubs : s ∈ (step st (Op.publish m)).subs := hs
        obtain ⟨ih1, ih2⟩ :=
          (registered_delivery_exact s ops (step st (Op.publish m))).1 hsubs hrest
        refine ⟨?_, by simpa only [run] using ih2⟩
        simp only [run]
        rw [ih1, hstep]
        simp [publishedMsgs]
      · intro hs hall
        have hrest : ∀ o ∈ ops, subscribesTo s o = false :=
          fun o ho => hall o (List.mem_cons_of_mem _ ho)
        have hstep : (step st (Op.publish m)).delivered s = st.delivered s := by
          simp [step, publishOp, hs]
        have hsubs : s ∉ (step st (Op.publish m)).subs := hs
        obtain ⟨ih1, ih2⟩ :=
          (registered_delivery_exact s ops (step st (Op.publish m))).2 hsubs hrest
        refine ⟨?_, by simpa only [run] using ih2⟩
        simp only [run]
        rw [ih1, hstep]
  | Op.subscribe s2 t :: ops, st => by
      constructor
      · intro hs hall
        have hne : s2 ≠ s := by
          simpa [touches] using hall _ (List.mem_cons_self _ _)
        have hrest : ∀ o ∈ ops, touches s o = false :=
          fun o ho => hall o (List.mem_cons_of_mem _ ho)
        have hstep : (step st (Op.subscribe s2 t)).delivered s = st.delivered s := by
          simp [step, subscribeOp, hne.symm]
        have hsubs : s ∈ (step st (Op.subscribe s2 t)).subs := by
          by_cases h2 : s2 ∈ st.subs <;> simp [step, subscribeOp, h2, hs]
        obtain ⟨ih1, ih2⟩ :=
          (registered_delivery_exact s ops (step st (Op.subscribe s2 t))).1 hsubs hrest
        refine ⟨?_, by simpa only [run] using ih2⟩
        simp only [run]
        rw [ih1, hstep]
        simp [publishedMsgs]
      · intro hs hall
        have hne : s2 ≠ s := by
          simpa [subscribesTo] using hall _ (List.mem_cons_self _ _)
        have hrest : ∀ o ∈ ops, subscribesTo s o = false :=
          fun o ho => hall o (List.mem_cons_of_mem _ ho)
        have hstep : (step st (Op.subscribe s2 t)).delivered s = st.delivered s := by
          simp [step, subscribeOp, hne.symm]
        have hsubs : s ∉ (step st (Op.subscribe s2 t)).subs := by
          by_cases h2 : s2 ∈ st.subs <;> simp [step, subscribeOp, h2, hs, hne.symm]
        obtain ⟨ih1, ih2⟩ :=
          (registered_delivery_exact s ops (step st (Op.subscribe s2 t))).2 hsubs hrest
        refine ⟨?_, by simpa only [run] using ih2⟩
        simp only [run]
        rw [ih1, hstep]
  | Op.unsubscribe s2 :: ops, st => by
      constructor
      · intro hs hall
        have hne : s2 ≠ s := by
          simpa [touches] using hall _ (List.mem_cons_self _ _)
        have hrest : ∀ o ∈ ops, touches s o = false :=
          fun o ho => hall o (List.mem_cons_of_mem _ ho)
        have hstep : (step st (Op.unsubscribe s2)).delivered s = st.delivered s := rfl
        have hsubs : s ∈ (step st (Op.unsubscribe s2)).subs :=
          (List.mem_erase_of_ne hne.symm).mpr hs
        obtain ⟨ih1, ih2⟩ :=
          (registered_delivery_exact s ops (step st (Op.unsubscribe s2))).1 hsubs hrest
        refine ⟨?_, by simpa only [run] using ih2⟩
        simp only [run]
        rw [ih1, hstep]
        simp [publishedMsgs]
      · intro hs hall
        have hrest : ∀ o ∈ ops, subscribesTo s o = false :=
          fun o ho => hall o (List.mem_cons_of_mem _ ho)
        have hstep : (step st (Op.unsubscribe s2)).delivered s = st.delivered s := rfl
        have hsubs : s ∉ (step st (Op.unsubscribe s2)).subs :=
          fun h => hs (List.mem_of_mem_erase h)
        obtain ⟨ih1, ih2⟩ :=
          (registered_delivery_exact s ops (step st (Op.unsubscribe s2))).2 hsubs hrest
        refine ⟨?_, by simpa only [run] using ih2⟩
        simp only [run]
        rw [ih1, hstep]

/-- C8 witness: subscriber 1 of `st0` receives exactly the two messages
published across a sequence that also subscribes and unsubscribes a
different subscriber. -/
theorem registered_delivery_exact_witness :
    (run st0 [Op.publish (dmsg 14), Op.subscribe 2 0, Op.publish (dmsg 16),
        Op.unsubscribe 2]).delivered 1
      = st0.delivered 1 ++ publishedMsgs [Op.publish (dmsg 14), Op.subscribe 2 0,
        Op.publish (dmsg 16), Op.unsubscribe 2] ∧
    1 ∈ (run st0 [Op.publish (dmsg 14), Op.subscribe 2 0, Op.publish (dmsg 16),
        Op.unsubscribe 2]).subs :=
  (registered_delivery_exact 1
      [Op.publish (dmsg 14), Op.subscribe 2 0, Op.publish (dmsg 16), Op.unsubscribe 2]
      st0).1 (by decide) (by decide)

/-! ### Claim theorems about the persistence layer -/

/-- C9: persistence failures map onto the Duplicate / NotFound / other
taxonomy: `Insert` with a non-nil id for which a file already exists
returns `ErrDuplicate`; `translateError` sends a duplicate-key error to
`ErrDuplicate`, the driver's not-found error to `ErrNotFound`, and leaves
every other error unchanged. -/
theorem persistence_error_taxonomy :
    (∀ (g : GridFS) (typ : String) (i : Nat) (ts : Int), g.openIdOk i = true →
      Fs.Insert g typ (some i) ts = Except.error MdbError.errDuplicate) ∧
    (∀ e, isDup e = true → translateError e = MdbError.errDuplicate) ∧
    translateError MdbError.mgoNotFound = MdbError.errNotFound ∧
    (∀ e, isDup e = false → e ≠ MdbError.mgoNotFound → translateError e = e) := by
  refine ⟨?_, ?_, by decide, ?_⟩
  · intro g typ i ts h
    simp [Fs.Insert, h]
  · intro e h
    simp [translateError, h]
  · intro e h1 h2
    simp [translateError, h1, h2]

/-- C9 witness: inserting under an already-used id fails with
`ErrDuplicate`; the driver's duplicate-key error translates to
`ErrDuplicate` and an unrelated underlying error passes through. -/
theorem persistence_error_taxonomy_witness :
    Fs.Insert gfs0 "full" (some 1) 7 = Except.error MdbError.errDuplicate ∧
    translateError MdbError.mgoDup = MdbError.errDuplicate ∧
    translateError (MdbError.underlying 3) = MdbError.underlying 3 :=
  ⟨persistence_error_taxonomy.1 gfs0 "full" 1 7 (by decide),
   persistence_error_taxonomy.2.1 MdbError.mgoDup (by decide),
   persistence_error_taxonomy.2.2.2 (MdbError.underlying 3) (by decide) (by decide)⟩

/-- C10: `Seek` with the zero `fromTs` omits the timestamp filter and
visits every file of the type, sorted by upload date — so a zero time
cannot serve as an exclusive lower bound — while a non-zero `fromTs`
visits exactly the files with upload date strictly greater than it,
sorted. -/
theorem seek_zero_vs_nonzero (g : GridFS) (typ : String) :
    ((Fs.Seek g typ 0).Sorted dateLe ∧
      (∀ f, f ∈ Fs.Seek g typ 0 ↔ f ∈ g.files ∧ f.filename = typ)) ∧
    (∀ fromTs, fromTs ≠ 0 →
      (Fs.Seek g typ fromTs).Sorted dateLe ∧
      (∀ f, f ∈ Fs.Seek g typ fromTs ↔
        f ∈ g.files ∧ f.filename = typ ∧ fromTs < f.uploadDate)) := by
  constructor
  · refine ⟨List.sorted_insertionSort dateLe _, ?_⟩
    intro f
    unfold Fs.Seek
    rw [(List.perm_insertionSort dateLe _).mem_iff, List.mem_filter]
    simp
  · intro fromTs h
    refine ⟨List.sorted_insertionSort dateLe _, ?_⟩
    intro f
    unfold Fs.Seek
    rw [(List.perm_insertionSort dateLe _).mem_iff, List.mem_filter]
    simp [h, and_assoc]

/-- C10 witness: with a zero `fromTs` the file dated -3 is visited (zero is
no lower bound), while `fromTs = 5` excludes it. -/
theorem seek_zero_vs_nonzero_witness :
    (({ id := none, filename := "d", uploadDate := -3 } : FsFile) ∈ Fs.Seek gfs1 "d" 0 ↔
      ({ id := none, filename := "d", uploadDate := -3 } : FsFile) ∈ gfs1.files ∧
      ({ id := none, filename := "d", uploadDate := -3 } : FsFile).filename = "d") ∧
    (({ id := none, filename := "d", uploadDate := -3 } : FsFile) ∈ Fs.Seek gfs1 "d" 5 ↔
      ({ id := none, filename := "d", uploadDate := -3 } : FsFile) ∈ gfs1.files ∧
      ({ id := none, filename := "d", uploadDate := -3 } : FsFile).filename = "d" ∧
      (5 : Int) < ({ id := none, filename := "d", uploadDate := -3 } : FsFile).uploadDate) :=
  ⟨(seek_zero_vs_nonzero gfs1 "d").1.2 _,
   ((seek_zero_vs_nonzero gfs1 "d").2 5 (by decide)).2 _⟩

end Svckit
